import Mathlib

/-!
Verification development for the classifier core of the avocado package
(src/avocado/classifier.py): object weighting policies, the weighted
multi-class log-loss metric, the k-fold out-of-fold prediction loop and the
neural-network training loop.  Machine floats are modelled by exact rationals
(and reals where logarithms or log-spaced bin edges occur); a Python
exception is modelled by the Except monad.
-/

deriving instance DecidableEq for Except

namespace AvocadoClassifier

/-! ### WeightEngine: flat policy (evaluate_weights_flat)

The source counts the objects of each class (`value_counts`), looks up the
user multiplier with plain dict indexing `class_weights[class_name]`
(a KeyError when the class is absent), computes
`class_weight * len(object_classes) / class_count` per class and maps every
object to the weight of its class. -/

/-- Number of objects of a given class: the entry of `value_counts` for the
class column of the metadata. -/
def classCount (object_classes : List ℕ) (c : ℕ) : ℕ :=
  (object_classes.filter (fun x => x = c)).length

/-- The per-class multiplier: value of the optional mapping, 1 when no
mapping is supplied.  (Used to state the specification; the source itself
indexes the dict directly.) -/
def userMultiplier (class_weights : Option (List (ℕ × ℚ))) (c : ℕ) : ℚ :=
  match class_weights with
  | none => 1
  | some m => (m.lookup c).getD 1

/-- Embedding of `evaluate_weights_flat`.  The weight of an object of class
`c` is `class_weight(c) * n / classCount c`; when a mapping is supplied,
`class_weights[class_name]` raises a KeyError (here `.error ()`) as soon as
a class present in the data is missing from the mapping. -/
def evaluate_weights_flat (object_classes : List ℕ)
    (class_weights : Option (List (ℕ × ℚ))) : Except Unit (List ℚ) :=
  match class_weights with
  | none =>
      .ok (object_classes.map fun c =>
        1 * (object_classes.length : ℚ) / (classCount object_classes c : ℚ))
  | some m =>
      if object_classes.dedup.all (fun c => (m.lookup c).isSome) then
        .ok (object_classes.map fun c =>
          ((m.lookup c).getD 1) * (object_classes.length : ℚ)
            / (classCount object_classes c : ℚ))
      else .error ()

lemma zip_map_filter_fst (l : List ℕ) (f : ℕ → ℚ) (c : ℕ) :
    (((l.zip (l.map f)).filter (fun p => p.1 = c)).map Prod.snd)
      = (l.filter (fun x => x = c)).map f := by
  induction l with
  | nil => simp
  | cons a l ih =>
      by_cases h : a = c
      · simp [List.filter_cons, h, ih]
      · simp [List.filter_cons, h, ih]

lemma classCount_cons (a : ℕ) (l : List ℕ) (c : ℕ) :
    classCount (a :: l) c = (if a = c then 1 else 0) + classCount l c := by
  by_cases h : a = c <;> simp [classCount, List.filter_cons, h, Nat.add_comm]

lemma sum_map_filter_eq (l : List ℕ) (f : ℕ → ℚ) (c : ℕ) :
    ((l.filter (fun x => x = c)).map f).sum = (classCount l c : ℚ) * f c := by
  induction l with
  | nil => simp [classCount]
  | cons a l ih =>
      by_cases h : a = c
      · simp [List.filter_cons, h, classCount_cons, ih]
        ring
      · simp [List.filter_cons, h, classCount_cons, ih]

lemma classCount_pos (l : List ℕ) (c : ℕ) (hc : c ∈ l) : 0 < classCount l c := by
  have hmem : c ∈ l.filter (fun x => x = c) := by
    simp [List.mem_filter, hc]
  exact List.length_pos.mpr (List.ne_nil_of_mem hmem)

/-- C2: the total flat-policy weight of every class present in the data is
the user multiplier of the class times the total object count. -/
theorem flat_weights_class_total (object_classes : List ℕ)
    (class_weights : Option (List (ℕ × ℚ))) (ws : List ℚ)
    (h : evaluate_weights_flat object_classes class_weights = .ok ws)
    (c : ℕ) (hc : c ∈ object_classes) :
    (((object_classes.zip ws).filter (fun p => p.1 = c)).map Prod.snd).sum
      = userMultiplier class_weights c * (object_classes.length : ℚ) := by
  have hcount : (classCount object_classes c : ℚ) ≠ 0 :=
    Nat.cast_ne_zero.mpr (classCount_pos object_classes c hc).ne'
  cases class_weights with
  | none =>
      simp only [evaluate_weights_flat, Except.ok.injEq] at h
      subst h
      rw [zip_map_filter_fst, sum_map_filter_eq]
      simp only [userMultiplier]
      field_simp
  | some m =>
      simp only [evaluate_weights_flat] at h
      split at h
      · simp only [Except.ok.injEq] at h
        subst h
        rw [zip_map_filter_fst, sum_map_filter_eq]
        simp only [userMultiplier]
        field_simp
      · exact absurd h (by simp)

/-- Witness for C2 at a concrete input: three objects, classes [0, 0, 1],
no class-weight mapping. -/
theorem flat_weights_class_total_witness :
    evaluate_weights_flat [0, 0, 1] none = .ok [3/2, 3/2, 3] ∧
    (((([0, 0, 1] : List ℕ).zip [(3 : ℚ)/2, 3/2, 3]).filter
        (fun p => p.1 = 0)).map Prod.snd).sum
      = userMultiplier none 0 * (([0, 0, 1] : List ℕ).length : ℚ) :=
  ⟨by norm_num [evaluate_weights_flat, classCount],
   flat_weights_class_total [0, 0, 1] none [3/2, 3/2, 3]
     (by norm_num [evaluate_weights_flat, classCount]) 0 (by simp)⟩

/-- C8 counterexample: `evaluate_weights_flat` succeeds although the user
mapping mentions class 5, absent from the class-count mapping (the claim
requires a failure), and it fails when class 1 of the data is not listed in
the mapping (the claim requires it to default to multiplier 1). -/
theorem flat_weights_mapping_counterexample :
    evaluate_weights_flat [0] (some [(0, 2), (5, 3)]) = .ok [2] ∧
    evaluate_weights_flat [0, 1] (some [(0, 2)]) = .error () := by
  constructor
  · norm_num [evaluate_weights_flat, classCount]
  · norm_num [evaluate_weights_flat]

/-- C8 amended: with a supplied mapping, `evaluate_weights_flat` fails with
the key-error condition if and only if some class present among the objects
is absent from the mapping; extra keys in the mapping are ignored. -/
theorem flat_weights_error_iff (object_classes : List ℕ) (m : List (ℕ × ℚ)) :
    evaluate_weights_flat object_classes (some m) = .error ()
      ↔ ∃ c ∈ object_classes, m.lookup c = none := by
  by_cases hcond : object_classes.dedup.all (fun c => (m.lookup c).isSome) = true
  · simp only [evaluate_weights_flat, if_pos hcond]
    simp only [List.all_eq_true, List.mem_dedup] at hcond
    constructor
    · intro h
      exact absurd h (by simp)
    · rintro ⟨c, hc, hnone⟩
      have hs := hcond c hc
      rw [hnone] at hs
      exact absurd hs (by simp)
  · simp only [evaluate_weights_flat, if_neg hcond]
    simp only [List.all_eq_true, List.mem_dedup] at hcond
    push_neg at hcond
    obtain ⟨c, hc, hns⟩ := hcond
    exact iff_of_true trivial ⟨c, hc, Option.not_isSome_iff_eq_none.mp hns⟩

/-! ### ScoreEngine: weighted_multi_logloss

The source initialises a per-object series at 1e10, then loops over the
sorted unique true classes: a class of weight 0 writes 0 into the series and
is skipped; otherwise a missing prediction column raises AvocadoException;
otherwise a predicted probability of exactly 0 is replaced by 1e-10 and each
object of the class receives
`-class_weight * object_weight * ln(p) / sum(object_weights of the class)`,
and the class weight is accumulated.  Finally the series is divided by the
accumulated class-weight sum and summed.  Here a table row carries its true
class, its object weight and its prediction row; `useObjW = false` models
`object_weights=None` (unit weights). -/

structure WmlRow where
  cls : ℕ
  w : ℚ
  p : ℕ → ℚ

/-- A dummy row used only as a lookup default in proofs. -/
def dummyRow : WmlRow := ⟨0, 0, fun _ => 0⟩

/-- The probability floor: an exact 0 is replaced by 1e-10 before the log. -/
def clampZero (q : ℚ) : ℚ := if q = 0 then 1e-10 else q

/-- The class weight used by the metric: `class_weights.get(class_name, 1)`,
and 1 when no mapping is supplied. -/
def classWeightOf (class_weights : Option (List (ℕ × ℚ))) (c : ℕ) : ℚ :=
  match class_weights with
  | none => 1
  | some m => (m.lookup c).getD 1

/-- Object weight actually used: the supplied weight, or 1 when
`object_weights=None` (np.ones). -/
def effWeight (useObjW : Bool) (r : WmlRow) : ℚ := if useObjW then r.w else 1

/-- Rows of a given true class (the boolean class mask). -/
def classRows (rows : List WmlRow) (c : ℕ) : List WmlRow :=
  rows.filter (fun r => r.cls = c)

/-- Unique true classes (np.unique of the true-class series; the loop result
is order independent, so first-occurrence order replaces sortedness). -/
def presentClasses (rows : List WmlRow) : List ℕ :=
  (rows.map (fun r => r.cls)).dedup

/-- Sum of the object weights within one class (np.sum of the masked
weights). -/
def sumClassObjWeights (rows : List WmlRow) (useObjW : Bool) (c : ℕ) : ℚ :=
  ((classRows rows c).map (effWeight useObjW)).sum

/-- The per-object contribution written for one class:
`-class_weight * object_weight * ln(clamped p) / sum_of_class_weights`. -/
noncomputable def rowLogloss (useObjW : Bool) (cwv sw : ℚ) (c : ℕ) (r : WmlRow) : ℝ :=
  -(cwv : ℝ) * (effWeight useObjW r : ℝ) * Real.log ((clampZero (r.p c) : ℚ) : ℝ)
    / (sw : ℝ)

/-- State of the metric loop: the mutable per-object series (indexed by row
position) and the accumulated sum of class weights. -/
structure WmlState where
  losses : ℕ → ℝ
  sumCW : ℚ

/-- Writing a value into the series at all rows of one class
(`object_loglosses[class_mask] = ...`). -/
noncomputable def wmlWrite (rows : List WmlRow) (c : ℕ) (f : WmlRow → ℝ)
    (old : ℕ → ℝ) : ℕ → ℝ :=
  fun i =>
    match rows[i]? with
    | some r => if r.cls = c then f r else old i
    | none => old i

/-- One iteration of the class loop of `weighted_multi_logloss`. -/
noncomputable def wmlStep (rows : List WmlRow) (cols : List ℕ) (useObjW : Bool)
    (cw : Option (List (ℕ × ℚ))) (st : WmlState) (c : ℕ) : Except Unit WmlState :=
  if classWeightOf cw c = 0 then
    .ok ⟨wmlWrite rows c (fun _ => 0) st.losses, st.sumCW⟩
  else if c ∈ cols then
    .ok ⟨wmlWrite rows c
          (rowLogloss useObjW (classWeightOf cw c)
            (sumClassObjWeights rows useObjW c) c) st.losses,
        st.sumCW + classWeightOf cw c⟩
  else .error ()

/-- Embedding of `weighted_multi_logloss` (scalar form): run the class loop
from the 1e10-initialised series, then divide the series by the accumulated
class-weight sum and sum it. -/
noncomputable def weighted_multi_logloss (rows : List WmlRow) (cols : List ℕ)
    (useObjW : Bool) (cw : Option (List (ℕ × ℚ))) : Except Unit ℝ :=
  ((presentClasses rows).foldlM (wmlStep rows cols useObjW cw)
      ⟨fun _ => 1e10, 0⟩).map
    (fun st =>
      ((List.range rows.length).map (fun i => st.losses i / (st.sumCW : ℝ))).sum)

/-- The classes that actually contribute: present classes of non-zero class
weight (the spec formula ranges over these). -/
def effClasses (rows : List WmlRow) (cw : Option (List (ℕ × ℚ))) : List ℕ :=
  (presentClasses rows).filter (fun c => ¬ classWeightOf cw c = 0)

/-- The total contribution of one class per the specification formula. -/
noncomputable def classLoglossSum (rows : List WmlRow) (useObjW : Bool)
    (cw : Option (List (ℕ × ℚ))) (c : ℕ) : ℝ :=
  ((classRows rows c).map
    (rowLogloss useObjW (classWeightOf cw c)
      (sumClassObjWeights rows useObjW c) c)).sum

/-- The value stated by the specification: per-class totals (non-zero-weight
present classes only), divided by the summed class weights of those
classes.  This definition follows the words of the claim, for comparison
with the loop above. -/
noncomputable def wmlSpecValue (rows : List WmlRow) (useObjW : Bool)
    (cw : Option (List (ℕ × ℚ))) : ℝ :=
  ((effClasses rows cw).map (classLoglossSum rows useObjW cw)).sum
    / ((((effClasses rows cw).map (classWeightOf cw)).sum : ℚ) : ℝ)

/-- The value each row ends with after its own class has been processed. -/
noncomputable def vRow (rows : List WmlRow) (useObjW : Bool)
    (cw : Option (List (ℕ × ℚ))) (r : WmlRow) : ℝ :=
  if classWeightOf cw r.cls = 0 then 0
  else rowLogloss useObjW (classWeightOf cw r.cls)
    (sumClassObjWeights rows useObjW r.cls) r.cls r

lemma wml_fold_ok (rows : List WmlRow) (cols : List ℕ) (useObjW : Bool)
    (cw : Option (List (ℕ × ℚ))) (L : List ℕ)
    (hL : ∀ c ∈ L, classWeightOf cw c = 0 ∨ c ∈ cols) (st : WmlState) :
    L.foldlM (wmlStep rows cols useObjW cw) st
      = .ok ⟨fun i =>
          match rows[i]? with
          | some r => if r.cls ∈ L then vRow rows useObjW cw r else st.losses i
          | none => st.losses i,
        st.sumCW + ((L.filter (fun c => ¬ classWeightOf cw c = 0)).map
          (classWeightOf cw)).sum⟩ := by
  induction L generalizing st with
  | nil =>
      have h1 : (⟨fun i =>
          match rows[i]? with
          | some r => if r.cls ∈ ([] : List ℕ) then vRow rows useObjW cw r
                      else st.losses i
          | none => st.losses i,
        st.sumCW + ((([] : List ℕ).filter (fun c => ¬ classWeightOf cw c = 0)).map
          (classWeightOf cw)).sum⟩ : WmlState) = st := by
        refine congrArg₂ WmlState.mk ?_ ?_
        · funext i
          cases rows[i]? <;> simp
        · simp
      rw [List.foldlM_nil, h1]
      rfl
  | cons c L ih =>
      rcases hL c (List.mem_cons_self c L) with h0 | hcol
      · rw [List.foldlM_cons]
        rw [wmlStep, if_pos h0]
        have hbind :
            (Except.ok (⟨wmlWrite rows c (fun _ => 0) st.losses, st.sumCW⟩ : WmlState)
              >>= fun st' => L.foldlM (wmlStep rows cols useObjW cw) st')
            = L.foldlM (wmlStep rows cols useObjW cw)
                ⟨wmlWrite rows c (fun _ => 0) st.losses, st.sumCW⟩ := rfl
        rw [hbind, ih (fun c' hc' => hL c' (List.mem_cons_of_mem c hc'))]
        congr 1
        refine congrArg₂ WmlState.mk ?_ ?_
        · funext i
          cases hrow : rows[i]? with
          | none => simp [wmlWrite, hrow]
          | some r =>
              by_cases hmem : r.cls ∈ L
              · simp [wmlWrite, hrow, hmem]
              · by_cases heq : r.cls = c
                · subst heq
                  simp [wmlWrite, hrow, hmem, vRow, h0]
                · simp [wmlWrite, hrow, hmem, heq]
        · simp [List.filter_cons, h0]
      · rw [List.foldlM_cons]
        by_cases h0 : classWeightOf cw c = 0
        · rw [wmlStep, if_pos h0]
          have hbind :
              (Except.ok (⟨wmlWrite rows c (fun _ => 0) st.losses, st.sumCW⟩ : WmlState)
                >>= fun st' => L.foldlM (wmlStep rows cols useObjW cw) st')
              = L.foldlM (wmlStep rows cols useObjW cw)
                  ⟨wmlWrite rows c (fun _ => 0) st.losses, st.sumCW⟩ := rfl
          rw [hbind, ih (fun c' hc' => hL c' (List.mem_cons_of_mem c hc'))]
          congr 1
          refine congrArg₂ WmlState.mk ?_ ?_
          · funext i
            cases hrow : rows[i]? with
            | none => simp [wmlWrite, hrow]
            | some r =>
                by_cases hmem : r.cls ∈ L
                · simp [wmlWrite, hrow, hmem]
                · by_cases heq : r.cls = c
                  · subst heq
                    simp [wmlWrite, hrow, hmem, vRow, h0]
                  · simp [wmlWrite, hrow, hmem, heq]
          · simp [List.filter_cons, h0]
        · rw [wmlStep, if_neg h0, if_pos hcol]
          have hbind :
              (Except.ok (⟨wmlWrite rows c
                  (rowLogloss useObjW (classWeightOf cw c)
                    (sumClassObjWeights rows useObjW c) c) st.losses,
                  st.sumCW + classWeightOf cw c⟩ : WmlState)
                >>= fun st' => L.foldlM (wmlStep rows cols useObjW cw) st')
              = L.foldlM (wmlStep rows cols useObjW cw)
                  ⟨wmlWrite rows c
                    (rowLogloss useObjW (classWeightOf cw c)
                      (sumClassObjWeights rows useObjW c) c) st.losses,
                  st.sumCW + classWeightOf cw c⟩ := rfl
          rw [hbind, ih (fun c' hc' => hL c' (List.mem_cons_of_mem c hc'))]
          congr 1
          refine congrArg₂ WmlState.mk ?_ ?_
          · funext i
            cases hrow : rows[i]? with
            | none => simp [wmlWrite, hrow]
            | some r =>
                by_cases hmem : r.cls ∈ L
                · simp [wmlWrite, hrow, hmem]
                · by_cases heq : r.cls = c
                  · subst heq
                    simp [wmlWrite, hrow, hmem, vRow, h0]
                  · simp [wmlWrite, hrow, hmem, heq]
          · simp [List.filter_cons, h0]
            ring

lemma except_ok_bind {α β : Type} (a : α) (f : α → Except Unit β) :
    (Except.ok a >>= f) = f a := rfl

lemma wml_fold_error_iff (rows : List WmlRow) (cols : List ℕ) (useObjW : Bool)
    (cw : Option (List (ℕ × ℚ))) (L : List ℕ) (st : WmlState) :
    L.foldlM (wmlStep rows cols useObjW cw) st = .error ()
      ↔ ∃ c ∈ L, ¬ classWeightOf cw c = 0 ∧ c ∉ cols := by
  induction L generalizing st with
  | nil =>
      rw [List.foldlM_nil]
      constructor
      · intro hcontra
        exact Except.noConfusion hcontra
      · rintro ⟨c, hc, _⟩
        exact absurd hc (List.not_mem_nil c)
  | cons c L ih =>
      rw [List.foldlM_cons]
      by_cases h0 : classWeightOf cw c = 0
      · rw [wmlStep, if_pos h0, except_ok_bind, ih]
        constructor
        · rintro ⟨c', hc', hprop⟩
          exact ⟨c', List.mem_cons_of_mem c hc', hprop⟩
        · rintro ⟨c', hc', hprop⟩
          rcases List.mem_cons.mp hc' with rfl | hmem
          · exact absurd h0 hprop.1
          · exact ⟨c', hmem, hprop⟩
      · by_cases hcol : c ∈ cols
        · rw [wmlStep, if_neg h0, if_pos hcol, except_ok_bind, ih]
          constructor
          · rintro ⟨c', hc', hprop⟩
            exact ⟨c', List.mem_cons_of_mem c hc', hprop⟩
          · rintro ⟨c', hc', hprop⟩
            rcases List.mem_cons.mp hc' with rfl | hmem
            · exact absurd hcol hprop.2
            · exact ⟨c', hmem, hprop⟩
        · rw [wmlStep, if_neg h0, if_neg hcol]
          exact iff_of_true rfl ⟨c, List.mem_cons_self c L, h0, hcol⟩

lemma sum_map_filter_split (l : List WmlRow) (p : WmlRow → Prop) [DecidablePred p]
    (f : WmlRow → ℝ) :
    (l.map f).sum = ((l.filter (fun a => p a)).map f).sum
      + ((l.filter (fun a => ¬ p a)).map f).sum := by
  induction l with
  | nil => simp
  | cons a l ih =>
      by_cases h : p a
      · simp only [List.map_cons, List.sum_cons, List.filter_cons, h, ih]
        simp [h]
        ring
      · simp only [List.map_cons, List.sum_cons, List.filter_cons, h, ih]
        simp [h]
        ring

lemma sum_map_eq_sum_classes (C : List ℕ) (hN : C.Nodup) (rows' : List WmlRow)
    (hC : ∀ r ∈ rows', r.cls ∈ C) (f : WmlRow → ℝ) :
    (rows'.map f).sum
      = (C.map (fun c => ((rows'.filter (fun r => r.cls = c)).map f).sum)).sum := by
  induction C generalizing rows' with
  | nil =>
      cases rows' with
      | nil => simp
      | cons r l => exact absurd (hC r (List.mem_cons_self r l)) (List.not_mem_nil _)
  | cons c C ih =>
      have hnd := List.nodup_cons.mp hN
      have hmem2 : ∀ r ∈ rows'.filter (fun r => ¬ r.cls = c), r.cls ∈ C := by
        intro r hr
        rcases List.mem_filter.mp hr with ⟨hr', hdec⟩
        rcases List.mem_cons.mp (hC r hr') with he | hm
        · exact absurd he (by simpa using hdec)
        · exact hm
      rw [sum_map_filter_split rows' (fun r => r.cls = c) f, List.map_cons,
        List.sum_cons]
      congr 1
      rw [ih hnd.2 _ hmem2]
      refine congrArg List.sum (List.map_congr_left ?_)
      intro c' hc'
      have hne : ¬ c' = c := fun he => hnd.1 (he ▸ hc')
      have hAB : (rows'.filter (fun r => ¬ r.cls = c)).filter (fun r => r.cls = c')
          = rows'.filter (fun r => r.cls = c') := by
        rw [List.filter_filter]
        refine List.filter_congr ?_
        intro r _
        by_cases hr : r.cls = c'
        · simp [hr, hne]
        · simp [hr]
      rw [hAB]

lemma sum_map_eq_sum_filter (C : List ℕ) (q : ℕ → Prop) [DecidablePred q]
    (g g' : ℕ → ℝ) (h0 : ∀ c ∈ C, ¬ q c → g c = 0) (h1 : ∀ c ∈ C, q c → g c = g' c) :
    (C.map g).sum = ((C.filter (fun c => q c)).map g').sum := by
  induction C with
  | nil => simp
  | cons c C ih =>
      have ih' := ih (fun x hx => h0 x (List.mem_cons_of_mem c hx))
        (fun x hx => h1 x (List.mem_cons_of_mem c hx))
      by_cases h : q c
      · simp [List.filter_cons, h, ih', h1 c (List.mem_cons_self c C) h]
      · simp [List.filter_cons, h, ih', h0 c (List.mem_cons_self c C) h]

lemma range_map_losses (l : List WmlRow) (F : ℕ → ℝ) (g : WmlRow → ℝ)
    (h : ∀ i : ℕ, ∀ hi : i < l.length, F i = g l[i]) :
    (List.range l.length).map F = l.map g := by
  induction l generalizing F with
  | nil => simp
  | cons a l ih =>
      rw [List.length_cons, List.range_succ_eq_map, List.map_cons, List.map_map]
      rw [h 0 (Nat.succ_pos _)]
      show _ = g a :: l.map g
      congr 1
      exact ih (F ∘ Nat.succ) (fun i hi => h (i + 1) (Nat.succ_lt_succ hi))

lemma sum_map_div (l : List WmlRow) (f : WmlRow → ℝ) (S : ℝ) :
    (l.map (fun r => f r / S)).sum = (l.map f).sum / S := by
  induction l with
  | nil => simp
  | cons a l ih => simp [ih, add_div]

lemma mem_presentClasses_of_getElem (rows : List WmlRow) (i : ℕ)
    (hi : i < rows.length) : rows[i].cls ∈ presentClasses rows :=
  List.mem_dedup.mpr (List.mem_map.mpr ⟨rows[i], List.getElem_mem hi, rfl⟩)

lemma clampZero_pos : ∀ q : ℚ, 0 ≤ q → 0 < clampZero q := by
  intro q hq
  rw [clampZero]
  by_cases hz : q = 0
  · rw [if_pos hz]
    norm_num
  · rw [if_neg hz]
    exact lt_of_le_of_ne hq (Ne.symm hz)

lemma wml_spec_refinement (rows : List WmlRow) (cols : List ℕ)
    (useObjW : Bool) (cw : Option (List (ℕ × ℚ)))
    (h : ∀ c ∈ presentClasses rows, classWeightOf cw c = 0 ∨ c ∈ cols) :
    weighted_multi_logloss rows cols useObjW cw
      = .ok (wmlSpecValue rows useObjW cw) := by
  rw [weighted_multi_logloss,
    wml_fold_ok rows cols useObjW cw (presentClasses rows) h ⟨fun _ => 1e10, 0⟩]
  simp only [Except.map, Except.ok.injEq, zero_add]
  rw [range_map_losses rows _ (fun r =>
      vRow rows useObjW cw r
        / (((((presentClasses rows).filter (fun c => ¬ classWeightOf cw c = 0)).map
            (classWeightOf cw)).sum : ℚ) : ℝ)) ?_]
  · rw [sum_map_div]
    rw [sum_map_eq_sum_classes (presentClasses rows)
      (List.nodup_dedup _) rows
      (fun r hr => List.mem_dedup.mpr (List.mem_map.mpr ⟨r, hr, rfl⟩))
      (vRow rows useObjW cw)]
    rw [wmlSpecValue]
    congr 1
    refine sum_map_eq_sum_filter (presentClasses rows)
      (fun c => ¬ classWeightOf cw c = 0) _ _ ?_ ?_
    · intro c _ hq
      have hq0 : classWeightOf cw c = 0 := not_not.mp hq
      refine List.sum_eq_zero ?_
      intro x hx
      rcases List.mem_map.mp hx with ⟨r, hr, rfl⟩
      have hcls : r.cls = c := by
        simpa using (List.mem_filter.mp hr).2
      rw [vRow, if_pos (hcls ▸ hq0)]
    · intro c _ hq
      rw [classLoglossSum]
      refine congrArg List.sum (List.map_congr_left ?_)
      intro r hr
      have hcls : r.cls = c := by
        simpa using (List.mem_filter.mp hr).2
      rw [vRow]
      rw [if_neg (by rw [hcls]; exact hq)]
      rw [hcls]
  · intro i hi
    have h1 : rows[i]? = some rows[i] := List.getElem?_eq_getElem hi
    have h3 := mem_presentClasses_of_getElem rows i hi
    simp only [h1, h3, if_true]

/-- C1: when every non-zero-weighted present class has a prediction column,
the metric returns exactly the specification value: per-class sums of
`-class_weight * object_weight * ln(clamped p) / (class object-weight sum)`
over the non-zero-weighted present classes, divided by the sum of those
class weights.  Moreover the 1e-10 floor makes every logarithm argument
positive for non-negative prediction entries, so no infinite contribution
arises from flooring. -/
theorem wml_matches_spec_formula (rows : List WmlRow) (cols : List ℕ)
    (useObjW : Bool) (cw : Option (List (ℕ × ℚ)))
    (h : ∀ c ∈ presentClasses rows, classWeightOf cw c = 0 ∨ c ∈ cols) :
    weighted_multi_logloss rows cols useObjW cw = .ok (wmlSpecValue rows useObjW cw)
      ∧ ∀ q : ℚ, 0 ≤ q → 0 < clampZero q :=
  ⟨wml_spec_refinement rows cols useObjW cw h, clampZero_pos⟩

/-- Witness for C1: two objects of classes 0 and 1 with flat prediction rows,
columns for both classes, no zero freedom in the hypothesis. -/
theorem wml_matches_spec_formula_witness :
    weighted_multi_logloss [⟨0, 1, fun _ => 9/10⟩, ⟨1, 1, fun _ => 1/2⟩]
        [0, 1] true none
      = .ok (wmlSpecValue [⟨0, 1, fun _ => 9/10⟩, ⟨1, 1, fun _ => 1/2⟩] true none)
      ∧ ∀ q : ℚ, 0 ≤ q → 0 < clampZero q :=
  wml_matches_spec_formula [⟨0, 1, fun _ => 9/10⟩, ⟨1, 1, fun _ => 1/2⟩]
    [0, 1] true none (by decide)

lemma wml_error_iff_lemma (rows : List WmlRow) (cols : List ℕ) (useObjW : Bool)
    (cw : Option (List (ℕ × ℚ))) :
    weighted_multi_logloss rows cols useObjW cw = .error ()
      ↔ ∃ c ∈ presentClasses rows, ¬ classWeightOf cw c = 0 ∧ c ∉ cols := by
  rw [weighted_multi_logloss,
    ← wml_fold_error_iff rows cols useObjW cw (presentClasses rows) ⟨fun _ => 1e10, 0⟩]
  cases hfold : (presentClasses rows).foldlM (wmlStep rows cols useObjW cw)
      ⟨fun _ => 1e10, 0⟩ with
  | error e =>
      cases e
      simp [Except.map]
  | ok st =>
      simp [Except.map]

/-- C5: the metric raises (before any result is returned) exactly when some
class present among the true labels has a non-zero class weight and no
prediction column; zero-weighted classes with missing columns do not raise. -/
theorem wml_error_iff_missing_nonzero_class (rows : List WmlRow) (cols : List ℕ)
    (useObjW : Bool) (cw : Option (List (ℕ × ℚ))) :
    weighted_multi_logloss rows cols useObjW cw = .error ()
      ↔ ∃ c ∈ presentClasses rows, ¬ classWeightOf cw c = 0 ∧ c ∉ cols :=
  wml_error_iff_lemma rows cols useObjW cw

lemma sum_map_eq_of_mem_iff {β : Type} [AddCommMonoid β] (l₁ l₂ : List ℕ)
    (h₁ : l₁.Nodup) (h₂ : l₂.Nodup) (hm : ∀ c, c ∈ l₁ ↔ c ∈ l₂)
    (f g : ℕ → β) (hfg : ∀ c ∈ l₁, f c = g c) :
    (l₁.map f).sum = (l₂.map g).sum := by
  have hperm : l₁.Perm l₂ := by
    rw [List.perm_ext_iff_of_nodup h₁ h₂]
    exact hm
  calc (l₁.map f).sum = (l₁.map g).sum :=
        congrArg List.sum (List.map_congr_left hfg)
    _ = (l₂.map g).sum := (hperm.map g).sum_eq

lemma classRows_filter_ne (rows : List WmlRow) (C c : ℕ) (hne : ¬ c = C) :
    classRows (rows.filter (fun r => ¬ r.cls = C)) c = classRows rows c := by
  rw [classRows, classRows, List.filter_filter]
  refine List.filter_congr ?_
  intro r _
  by_cases h : r.cls = c
  · simp [h, hne]
  · simp [h]

lemma classLoglossSum_filter_ne (rows : List WmlRow) (useObjW : Bool)
    (cw : Option (List (ℕ × ℚ))) (C c : ℕ) (hne : ¬ c = C) :
    classLoglossSum (rows.filter (fun r => ¬ r.cls = C)) useObjW cw c
      = classLoglossSum rows useObjW cw c := by
  rw [classLoglossSum, classLoglossSum, classRows_filter_ne rows C c hne,
    sumClassObjWeights, sumClassObjWeights, classRows_filter_ne rows C c hne]

lemma mem_presentClasses_filter_iff (rows : List WmlRow)
    (cw : Option (List (ℕ × ℚ))) (C : ℕ) (hC0 : classWeightOf cw C = 0)
    (c : ℕ) (hz : ¬ classWeightOf cw c = 0) :
    c ∈ presentClasses (rows.filter (fun r => ¬ r.cls = C))
      ↔ c ∈ presentClasses rows := by
  have hne : ¬ c = C := fun he => hz (he ▸ hC0)
  simp only [presentClasses, List.mem_dedup, List.mem_map]
  constructor
  · rintro ⟨r, hr, rfl⟩
    exact ⟨r, (List.mem_filter.mp hr).1, rfl⟩
  · rintro ⟨r, hr, rfl⟩
    exact ⟨r, List.mem_filter.mpr ⟨hr, by simpa using hne⟩, rfl⟩

lemma mem_effClasses_filter_iff (rows : List WmlRow)
    (cw : Option (List (ℕ × ℚ))) (C : ℕ) (hC0 : classWeightOf cw C = 0)
    (c : ℕ) :
    c ∈ effClasses (rows.filter (fun r => ¬ r.cls = C)) cw
      ↔ c ∈ effClasses rows cw := by
  rw [effClasses, effClasses, List.mem_filter, List.mem_filter]
  constructor
  · rintro ⟨hp, hz⟩
    exact ⟨(mem_presentClasses_filter_iff rows cw C hC0 c (by simpa using hz)).mp hp, hz⟩
  · rintro ⟨hp, hz⟩
    exact ⟨(mem_presentClasses_filter_iff rows cw C hC0 c (by simpa using hz)).mpr hp, hz⟩

/-- C4: a class whose explicit weight is 0 has no influence: the metric on
the full table equals the metric on the table with every row of that class
deleted (the class weight normaliser re-summed over the remaining classes
only). -/
theorem wml_zero_weight_class_removal (rows : List WmlRow) (cols : List ℕ)
    (useObjW : Bool) (m : List (ℕ × ℚ)) (C : ℕ)
    (hC : m.lookup C = some 0) :
    weighted_multi_logloss rows cols useObjW (some m)
      = weighted_multi_logloss (rows.filter (fun r => ¬ r.cls = C)) cols useObjW
          (some m) := by
  have hC0 : classWeightOf (some m) C = 0 := by
    rw [classWeightOf, hC]
    rfl
  by_cases hE : ∃ c ∈ presentClasses rows,
      ¬ classWeightOf (some m) c = 0 ∧ c ∉ cols
  · obtain ⟨c, hc, hprop⟩ := hE
    have h1 : weighted_multi_logloss rows cols useObjW (some m) = .error () :=
      (wml_error_iff_lemma rows cols useObjW (some m)).mpr ⟨c, hc, hprop⟩
    have h2 : weighted_multi_logloss (rows.filter (fun r => ¬ r.cls = C)) cols
        useObjW (some m) = .error () := by
      refine (wml_error_iff_lemma _ cols useObjW (some m)).mpr ⟨c, ?_, hprop⟩
      exact (mem_presentClasses_filter_iff rows (some m) C hC0 c hprop.1).mpr hc
    rw [h1, h2]
  · push_neg at hE
    have hok1 : ∀ c ∈ presentClasses rows,
        classWeightOf (some m) c = 0 ∨ c ∈ cols := by
      intro c hc
      by_cases hz : classWeightOf (some m) c = 0
      · exact Or.inl hz
      · exact Or.inr (hE c hc hz)
    have hok2 : ∀ c ∈ presentClasses (rows.filter (fun r => ¬ r.cls = C)),
        classWeightOf (some m) c = 0 ∨ c ∈ cols := by
      intro c hc
      by_cases hz : classWeightOf (some m) c = 0
      · exact Or.inl hz
      · exact Or.inr (hE c
          ((mem_presentClasses_filter_iff rows (some m) C hC0 c hz).mp hc) hz)
    rw [wml_spec_refinement rows cols useObjW (some m) hok1,
      wml_spec_refinement _ cols useObjW (some m) hok2]
    refine congrArg Except.ok ?_
    rw [wmlSpecValue, wmlSpecValue]
    have hnodup1 : (effClasses rows (some m)).Nodup :=
      (List.nodup_dedup _).filter _
    have hnodup2 : (effClasses (rows.filter (fun r => ¬ r.cls = C)) (some m)).Nodup :=
      (List.nodup_dedup _).filter _
    have hmemiff := mem_effClasses_filter_iff rows (some m) C hC0
    have hne_of_eff : ∀ c ∈ effClasses rows (some m), ¬ c = C := by
      intro c hc he
      have hz := (List.mem_filter.mp hc).2
      rw [he] at hz
      simp [hC0] at hz
    have hnum : ((effClasses rows (some m)).map
          (classLoglossSum rows useObjW (some m))).sum
        = ((effClasses (rows.filter (fun r => ¬ r.cls = C)) (some m)).map
          (classLoglossSum (rows.filter (fun r => ¬ r.cls = C)) useObjW (some m))).sum :=
      sum_map_eq_of_mem_iff _ _ hnodup1 hnodup2 (fun c => (hmemiff c).symm) _ _
        (fun c hc =>
          (classLoglossSum_filter_ne rows useObjW (some m) C c (hne_of_eff c hc)).symm)
    have hden : ((effClasses rows (some m)).map (classWeightOf (some m))).sum
        = ((effClasses (rows.filter (fun r => ¬ r.cls = C)) (some m)).map
          (classWeightOf (some m))).sum :=
      sum_map_eq_of_mem_iff _ _ hnodup1 hnodup2 (fun c => (hmemiff c).symm) _ _
        (fun _ _ => rfl)
    rw [hnum, hden]

/-- Witness for C4: classes [0, 1] with class 1 zero-weighted. -/
theorem wml_zero_weight_class_removal_witness :
    weighted_multi_logloss [⟨0, 1, fun _ => 1/2⟩, ⟨1, 1, fun _ => 1/3⟩]
        [0] false (some [(1, 0)])
      = weighted_multi_logloss
          (([⟨0, 1, fun _ => 1/2⟩, ⟨1, 1, fun _ => 1/3⟩] : List WmlRow).filter
            (fun r => ¬ r.cls = 1))
          [0] false (some [(1, 0)]) :=
  wml_zero_weight_class_removal [⟨0, 1, fun _ => 1/2⟩, ⟨1, 1, fun _ => 1/3⟩]
    [0] false [(1, 0)] 1 (by decide)

/-! ### CVOrchestrator: out-of-fold prediction assembly

Both `LightGBMClassifier.train` and `NNClassifier.train` initialise the
prediction table at -1, derive `num_folds = np.max(folds) + 1`, and for each
fold write the rows of `folds == fold` with that fold validation
predictions (`predictions[validation_mask] = validation_predictions`).  The
written row values come from the backend and are abstract here (`predRow`);
the rows are generic in the entry type. -/

/-- Number of folds derived from the labels: `np.max(folds) + 1`. -/
def numFolds (folds : List ℕ) : ℕ := folds.foldr max 0 + 1

/-- One fold writes its validation rows
(`predictions[validation_mask] = validation_predictions`). -/
def oofWrite {α : Type} (folds : List ℕ) (predRow : ℕ → ℕ → α) (f : ℕ)
    (tab : ℕ → α) : ℕ → α :=
  fun i => if folds[i]? = some f then predRow f i else tab i

/-- The fold loop: start from the sentinel-filled table (-1 rows) and let
each fold of `range num_folds` write its validation slice. -/
def oofTable {α : Type} (folds : List ℕ) (sentinel : α)
    (predRow : ℕ → ℕ → α) : ℕ → α :=
  (List.range (numFolds folds)).foldl (fun tab f => oofWrite folds predRow f tab)
    (fun _ => sentinel)

lemma le_foldr_max (l : List ℕ) (x : ℕ) (hx : x ∈ l) : x ≤ l.foldr max 0 := by
  induction l with
  | nil => cases hx
  | cons a l ih =>
      rcases List.mem_cons.mp hx with rfl | hm
      · exact le_max_left _ _
      · exact le_trans (ih hm) (le_max_right _ _)

lemma oofTable_foldl {α : Type} (folds : List ℕ) (predRow : ℕ → ℕ → α)
    (F : List ℕ) (tab : ℕ → α) (i : ℕ) :
    (F.foldl (fun t f => oofWrite folds predRow f t) tab) i
      = match folds[i]? with
        | some v => if v ∈ F then predRow v i else tab i
        | none => tab i := by
  induction F generalizing tab with
  | nil => cases folds[i]? <;> simp
  | cons f F ih =>
      rw [List.foldl_cons, ih]
      cases hv : folds[i]? with
      | none => simp [oofWrite, hv]
      | some v =>
          by_cases hm : v ∈ F
          · simp [hm, List.mem_cons]
          · by_cases he : v = f
            · subst he
              simp [hm, oofWrite, hv]
            · simp [hm, he, oofWrite, hv]

lemma filter_range_eq_one (nf g : ℕ) (hg : g < nf) :
    ((List.range nf).filter (fun f => g = f)).length = 1 := by
  rw [← List.countP_eq_length_filter]
  have h1 : List.countP (fun f => decide (g = f)) (List.range nf)
      = List.count g (List.range nf) := by
    rw [List.count]
    refine List.countP_congr ?_
    intro f _
    by_cases h : g = f
    · subst h
      simp
    · simp [h, Ne.symm h]
  rw [h1]
  exact List.count_eq_one_of_mem (List.nodup_range nf) (List.mem_range.mpr hg)

lemma multiset_filter_partition (key : ℕ → Option ℕ) (nf : ℕ) (s : Multiset ℕ)
    (h : ∀ i ∈ s, ∃ g, key i = some g ∧ g < nf) :
    (Finset.range nf).sum (fun f => s.filter (fun i => key i = some f)) = s := by
  induction s using Multiset.induction_on with
  | empty => simp
  | cons a s ih =>
      obtain ⟨g, hg, hglt⟩ := h a (Multiset.mem_cons_self a s)
      have ih' := ih (fun i hi => h i (Multiset.mem_cons_of_mem hi))
      have hstep : ∀ f, (a ::ₘ s).filter (fun i => key i = some f)
          = (if f = g then ({a} : Multiset ℕ) else 0)
            + s.filter (fun i => key i = some f) := by
        intro f
        rw [Multiset.filter_cons]
        congr 1
        by_cases hf : f = g
        · subst hf
          simp [hg]
        · rw [if_neg hf, if_neg ?_]
          rw [hg]
          exact fun hc => hf (Option.some.inj hc).symm
      rw [Finset.sum_congr rfl (fun f _ => hstep f), Finset.sum_add_distrib, ih']
      rw [Finset.sum_ite_eq' (Finset.range nf) g (fun _ => ({a} : Multiset ℕ))]
      rw [if_pos (Finset.mem_range.mpr hglt)]
      rw [← Multiset.singleton_add]

/-- C3: after the fold loop, for fold labels covering `range num_folds`,
every row of the table equals the prediction written by the unique fold
whose validation slice contains it, no row still holds the sentinel
(backend rows never equal the sentinel), exactly one fold writes each row,
and the multiset union of the per-fold validation row keys is exactly the
full index with no duplicates. -/
theorem oof_table_complete_and_disjoint {α : Type} (folds : List ℕ)
    (sentinel : α) (predRow : ℕ → ℕ → α)
    (_hnf : 2 ≤ numFolds folds)
    (hps : ∀ f i : ℕ, ¬ predRow f i = sentinel) :
    (∀ i : ℕ, ∀ hi : i < folds.length,
        oofTable folds sentinel predRow i = predRow folds[i] i
          ∧ ¬ oofTable folds sentinel predRow i = sentinel)
      ∧ (∀ i : ℕ, ∀ hi : i < folds.length,
          ((List.range (numFolds folds)).filter (fun f => folds[i] = f)).length = 1)
      ∧ (Finset.range (numFolds folds)).sum
            (fun f => (Multiset.range folds.length).filter
              (fun i => folds[i]? = some f))
          = Multiset.range folds.length := by
  have hlt : ∀ i : ℕ, ∀ hi : i < folds.length, folds[i] < numFolds folds := by
    intro i hi
    exact Nat.lt_succ_of_le (le_foldr_max folds folds[i] (List.getElem_mem hi))
  refine ⟨?_, ?_, ?_⟩
  · intro i hi
    have hv : folds[i]? = some folds[i] := List.getElem?_eq_getElem hi
    have hval : oofTable folds sentinel predRow i = predRow folds[i] i := by
      rw [oofTable, oofTable_foldl, hv]
      simp [List.mem_range.mpr (hlt i hi)]
    exact ⟨hval, by rw [hval]; exact hps folds[i] i⟩
  · intro i hi
    exact filter_range_eq_one (numFolds folds) folds[i] (hlt i hi)
  · refine multiset_filter_partition (fun i => folds[i]?) (numFolds folds)
      (Multiset.range folds.length) ?_
    intro i hi
    have hi' : i < folds.length := by
      simpa [Multiset.mem_range] using hi
    exact ⟨folds[i], List.getElem?_eq_getElem hi', hlt i hi'⟩

/-- Witness for C3: two folds [0, 1], rational table entries, constant
backend prediction 1 (never the sentinel -1). -/
theorem oof_table_complete_and_disjoint_witness :
    (2 ≤ numFolds [0, 1]) ∧
    ((∀ i : ℕ, ∀ hi : i < ([0, 1] : List ℕ).length,
        oofTable [0, 1] (-1 : ℚ) (fun _ _ => 1) i
            = (fun _ _ => (1 : ℚ)) (([0, 1] : List ℕ)[i]) i
          ∧ ¬ oofTable [0, 1] (-1 : ℚ) (fun _ _ => 1) i = (-1 : ℚ))
      ∧ (∀ i : ℕ, ∀ hi : i < ([0, 1] : List ℕ).length,
          ((List.range (numFolds [0, 1])).filter
            (fun f => ([0, 1] : List ℕ)[i] = f)).length = 1)
      ∧ (Finset.range (numFolds [0, 1])).sum
            (fun f => (Multiset.range ([0, 1] : List ℕ).length).filter
              (fun i => ([0, 1] : List ℕ)[i]? = some f))
          = Multiset.range ([0, 1] : List ℕ).length) :=
  ⟨by decide,
   oof_table_complete_and_disjoint [0, 1] (-1 : ℚ) (fun _ _ => 1) (by decide)
     (fun f i => by norm_num)⟩

/-! ### NeuralBackend: fit_nn_classifier training loop

The loop body per iteration: sample a training mini-batch, forward pass,
weighted cross-entropy, backward pass, one optimizer step; every
`eval_interval` iterations (and at the final iteration) an evaluation pass
samples `eval_iters` fresh batches from each split, and the full model state
is checkpointed to the save path when the validation loss improves on the
best seen (best initialised to np.inf).  The optimizer step and the
evaluation loss are opaque callables here; the state records the model, the
best seen loss, the checkpoint content, and counters of optimizer steps and
sampled batches. -/

structure NNState (M : Type) where
  model : M
  bestLoss : Option ℚ
  saved : Option M
  steps : ℕ
  batches : ℕ

/-- The checkpoint condition `metrics < best_loss`, best initially np.inf. -/
def improvesBest (l : ℚ) (best : Option ℚ) : Bool :=
  match best with
  | none => true
  | some b => decide (l < b)

/-- One iteration of the fit_nn_classifier loop body. -/
def nnIter {M : Type} (step : M → ℕ → M) (valLoss : M → ℕ → ℚ)
    (evalInterval maxIters evalIters : ℕ) (savePath : Bool)
    (st : NNState M) (iter : ℕ) : NNState M :=
  let m := step st.model iter
  let st' : NNState M := ⟨m, st.bestLoss, st.saved, st.steps + 1, st.batches + 1⟩
  if iter % evalInterval = 0 ∨ iter = maxIters - 1 then
    let l := valLoss m iter
    let st'' : NNState M := { st' with batches := st'.batches + 2 * evalIters }
    if improvesBest l st''.bestLoss && savePath then
      { st'' with bestLoss := some l, saved := some m }
    else st''
  else st'

/-- The training loop of fit_nn_classifier: `for iter in range(max_iters)`,
starting from the freshly initialised model, no checkpoint, no steps. -/
def nnTrainLoop {M : Type} (step : M → ℕ → M) (valLoss : M → ℕ → ℚ)
    (evalInterval maxIters evalIters : ℕ) (savePath : Bool) (init : M) :
    NNState M :=
  (List.range maxIters).foldl
    (nnIter step valLoss evalInterval maxIters evalIters savePath)
    ⟨init, none, none, 0, 0⟩

/-- C9: with max_iters = 0 the loop body never executes: no mini-batch is
sampled, no optimizer step is taken, no checkpoint is written, the best
loss is still infinite, and the returned model is the freshly initialised
one. -/
theorem nn_train_zero_iters_initial_state {M : Type} (step : M → ℕ → M)
    (valLoss : M → ℕ → ℚ) (evalInterval evalIters : ℕ) (savePath : Bool)
    (init : M) :
    (nnTrainLoop step valLoss evalInterval 0 evalIters savePath init).model = init
      ∧ (nnTrainLoop step valLoss evalInterval 0 evalIters savePath init).bestLoss
          = none
      ∧ (nnTrainLoop step valLoss evalInterval 0 evalIters savePath init).saved
          = none
      ∧ (nnTrainLoop step valLoss evalInterval 0 evalIters savePath init).steps = 0
      ∧ (nnTrainLoop step valLoss evalInterval 0 evalIters savePath init).batches
          = 0 :=
  ⟨rfl, rfl, rfl, rfl, rfl⟩

/-- The model after the final training iteration, as a plain fold of
optimizer steps over `range max_iters`. -/
def iterModel {M : Type} (step : M → ℕ → M) (maxIters : ℕ) (init : M) : M :=
  (List.range maxIters).foldl step init

/-- Softmax normalisation of one row of logits (scipy.special.softmax). -/
noncomputable def softmaxRow (logits : List ℝ) : List ℝ :=
  logits.map (fun x => Real.exp x / (logits.map Real.exp).sum)

/-- NNClassifier.train computes a fold out-of-fold validation predictions
with the object returned by fit_nn_classifier: one softmax-normalised
forward pass of the final-iteration model per validation row. -/
noncomputable def nnFoldValidationPredictions {M : Type} (step : M → ℕ → M)
    (valLoss : M → ℕ → ℚ) (evalInterval maxIters evalIters : ℕ)
    (savePath : Bool) (init : M) (forward : M → ℕ → List ℝ)
    (valIdx : List ℕ) : List (List ℝ) :=
  valIdx.map (fun i =>
    softmaxRow (forward
      (nnTrainLoop step valLoss evalInterval maxIters evalIters savePath
        init).model i))

/-- NNClassifier.predict rebuilds the model from its configuration and loads
the weights from the checkpoint file written during training, i.e. the
best-validation state, not the final state. -/
def nnPredictModelSource {M : Type} (step : M → ℕ → M) (valLoss : M → ℕ → ℚ)
    (evalInterval maxIters evalIters : ℕ) (savePath : Bool) (init : M) :
    Option M :=
  (nnTrainLoop step valLoss evalInterval maxIters evalIters savePath init).saved

lemma nnIter_foldl_model {M : Type} (step : M → ℕ → M) (valLoss : M → ℕ → ℚ)
    (evalInterval maxIters evalIters : ℕ) (savePath : Bool)
    (F : List ℕ) (st : NNState M) :
    (F.foldl (nnIter step valLoss evalInterval maxIters evalIters savePath)
        st).model
      = F.foldl step st.model := by
  induction F generalizing st with
  | nil => rfl
  | cons f F ih =>
      rw [List.foldl_cons, List.foldl_cons, ih]
      congr 1
      rw [nnIter]
      split
      · dsimp only
        split <;> rfl
      · rfl

lemma nnTrainLoop_model {M : Type} (step : M → ℕ → M) (valLoss : M → ℕ → ℚ)
    (evalInterval maxIters evalIters : ℕ) (savePath : Bool) (init : M) :
    (nnTrainLoop step valLoss evalInterval maxIters evalIters savePath
        init).model
      = iterModel step maxIters init :=
  nnIter_foldl_model step valLoss evalInterval maxIters evalIters savePath
    (List.range maxIters) ⟨init, none, none, 0, 0⟩

/-- C10: the out-of-fold validation predictions written by NNClassifier.train
are computed from the final-iteration model (the fold of all optimizer
steps), for every input; NNClassifier.predict draws its weights from the
checkpoint written at the best evaluation, which can differ from the final
model: in the concrete run below the checkpoint holds the model after one
step while training returned the model after two steps. -/
theorem nn_oof_uses_final_model_predict_uses_checkpoint :
    (∀ (M : Type) (step : M → ℕ → M) (valLoss : M → ℕ → ℚ)
        (evalInterval maxIters evalIters : ℕ) (savePath : Bool) (init : M)
        (forward : M → ℕ → List ℝ) (valIdx : List ℕ),
      nnFoldValidationPredictions step valLoss evalInterval maxIters evalIters
          savePath init forward valIdx
        = valIdx.map (fun i =>
            softmaxRow (forward (iterModel step maxIters init) i)))
      ∧ nnPredictModelSource (fun m _ => m + 1) (fun _ _ => 0) 2 2 1 true
          (0 : ℕ) = some 1
      ∧ (nnTrainLoop (fun m _ => m + 1) (fun _ _ => 0) 2 2 1 true
          (0 : ℕ)).model = 2 := by
  refine ⟨?_, ?_, ?_⟩
  · intro M step valLoss evalInterval maxIters evalIters savePath init forward valIdx
    rw [nnFoldValidationPredictions,
      nnTrainLoop_model step valLoss evalInterval maxIters evalIters savePath init]
  · decide
  · decide

/-! ### WeightEngine: redshift-stratified policy (evaluate_weights_redshift)

The source builds `num_bins + 1` logarithmically spaced edges between
`min_redshift` and `max_redshift`, replaces the first and last edges by
1e-99 and 1e99, prepends -1e99 as the lower boundary of the galactic bin at
redshift exactly 0, and assigns each object the bin
`np.searchsorted(redshift_bins, z) - 1`. -/

/-- np.linspace with endpoint=True: `a + i * (b - a) / (n - 1)`. -/
noncomputable def linspace (a b : ℝ) (n : ℕ) : List ℝ :=
  (List.range n).map (fun i : ℕ => a + (i : ℝ) * ((b - a) / ((n : ℝ) - 1)))

/-- np.logspace: ten to the power of each linspace element. -/
noncomputable def logspace (a b : ℝ) (n : ℕ) : List ℝ :=
  (linspace a b n).map (fun e => (10 : ℝ) ^ e)

/-- The redshift bin edge list of evaluate_weights_redshift. -/
noncomputable def make_redshift_bins (min_r max_r : ℝ) (num_bins : ℕ) : List ℝ :=
  let bins := logspace (Real.logb 10 min_r) (Real.logb 10 max_r) (num_bins + 1)
  let bins := bins.set 0 1e-99
  let bins := bins.set (bins.length - 1) 1e99
  (-1e99) :: bins

/-- np.searchsorted with side='left': the first index whose element is ≥ v,
or the length when every element is smaller. -/
noncomputable def searchsorted (bins : List ℝ) (v : ℝ) : ℕ :=
  match bins with
  | [] => 0
  | b :: rest => if v ≤ b then 0 else searchsorted rest v + 1

/-- Bin index of a redshift value: `np.searchsorted(redshift_bins, z) - 1`.
For every value above the -1e99 sentinel the searchsorted result is at least
1, so the truncated subtraction coincides with the source. -/
noncomputable def binIndex (bins : List ℝ) (v : ℝ) : ℕ := searchsorted bins v - 1

lemma make_redshift_bins_example :
    make_redshift_bins (1/10) 10 2 = [-1e99, 1e-99, 1, 1e99] := by
  have hlogb1 : Real.logb 10 (1/10 : ℝ) = -1 := by
    rw [one_div, Real.logb_inv, Real.logb_self_eq_one (by norm_num)]
  have hlogb2 : Real.logb 10 (10 : ℝ) = 1 :=
    Real.logb_self_eq_one (by norm_num)
  have hlin : linspace (-1) 1 3 = [-1, 0, 1] := by
    rw [linspace]
    norm_num [List.range_succ]
  have hrpow0 : (10 : ℝ) ^ (0 : ℝ) = 1 := Real.rpow_zero 10
  have hrpow1 : (10 : ℝ) ^ (1 : ℝ) = 10 := Real.rpow_one 10
  rw [make_redshift_bins, logspace, hlogb1, hlogb2, hlin]
  simp only [List.map_cons, List.map_nil, Real.rpow_neg_one, hrpow0, hrpow1]
  norm_num [List.set]

lemma binIndex_boundary_example :
    binIndex [(-1e99 : ℝ), 1e-99, 1, 1e99] 1 = 1 := by
  rw [binIndex]
  rw [searchsorted, if_neg (by norm_num), searchsorted, if_neg (by norm_num),
    searchsorted, if_pos (by norm_num)]

/-- C6 counterexample: in the layout built from min=0.1, max=10, num_bins=2,
the internal boundary 1 is the lower edge of bin 2 (it is the edge at index
2), yet an object at redshift exactly 1 is assigned bin 1, the bin for which
this boundary is the upper edge: searchsorted-left gives right-closed bins,
not the left-closed semantics of the claim. -/
theorem redshift_bin_boundary_counterexample :
    (make_redshift_bins (1/10) 10 2)[2]? = some 1
      ∧ binIndex (make_redshift_bins (1/10) 10 2) 1 = 1 ∧ (1 : ℕ) ≠ 2 := by
  refine ⟨?_, ?_, by decide⟩
  · rw [make_redshift_bins_example]
    rfl
  · rw [make_redshift_bins_example, binIndex_boundary_example]

lemma searchsorted_eq_of_sorted : ∀ (bins : List ℝ) (j : ℕ) (e : ℝ),
    List.Sorted (· < ·) bins → bins[j]? = some e → searchsorted bins e = j := by
  intro bins
  induction bins with
  | nil =>
      intro j e _ hj
      simp at hj
  | cons b rest ih =>
      intro j e hs hj
      cases j with
      | zero =>
          have hb : b = e := by simpa using hj
          rw [searchsorted, if_pos (le_of_eq hb.symm)]
      | succ j =>
          have hj' : rest[j]? = some e := by simpa using hj
          have hmem : e ∈ rest := by
            rcases List.getElem?_eq_some.mp hj' with ⟨hlt, hget⟩
            exact hget ▸ List.getElem_mem hlt
          have hbe : b < e := (List.sorted_cons.mp hs).1 e hmem
          rw [searchsorted, if_neg (not_le.mpr hbe),
            ih j e (List.sorted_cons.mp hs).2 hj']

/-- C6 amended: a redshift exactly equal to an edge of the strictly sorted
bin-edge list is assigned the bin for which that edge is the upper edge:
`binIndex` returns `j - 1` for the edge at position `j` (right-closed,
left-open interval semantics of searchsorted side left). -/
theorem redshift_bin_boundary_upper_edge (bins : List ℝ) (j : ℕ) (e : ℝ)
    (hs : List.Sorted (· < ·) bins) (hj : bins[j]? = some e)
    (_h1 : 1 ≤ j) : binIndex bins e = j - 1 := by
  rw [binIndex, searchsorted_eq_of_sorted bins j e hs hj]

/-- Witness for the amended C6 at the concrete edge list built by the
source for min=0.1, max=10, num_bins=2: the edge 1 sits at position 2 and
an object at redshift exactly 1 lands in bin 1. -/
theorem redshift_bin_boundary_upper_edge_witness :
    List.Sorted (· < ·) (make_redshift_bins (1/10) 10 2)
      ∧ (make_redshift_bins (1/10) 10 2)[2]? = some 1
      ∧ binIndex (make_redshift_bins (1/10) 10 2) 1 = 2 - 1 :=
  ⟨by rw [make_redshift_bins_example]; norm_num [List.sorted_cons],
   by rw [make_redshift_bins_example]; rfl,
   redshift_bin_boundary_upper_edge (make_redshift_bins (1/10) 10 2) 2 1
     (by rw [make_redshift_bins_example]; norm_num [List.sorted_cons])
     (by rw [make_redshift_bins_example]; rfl) (by norm_num)⟩

/-- An object of the dataset as seen by evaluate_weights_redshift: its class,
its group and its redshift. -/
structure ZObj where
  cls : ℕ
  grp : ℕ
  z : ℝ

/-- An object with its redshift bin already assigned. -/
structure CellObj where
  cls : ℕ
  grp : ℕ
  bin : ℕ
deriving DecidableEq

/-- Assign every object its redshift bin by binary search on the edges. -/
noncomputable def assignBins (objs : List ZObj) (bins : List ℝ) : List CellObj :=
  objs.map (fun o => ⟨o.cls, o.grp, binIndex bins o.z⟩)

/-- The count of one (group, redshift-bin, class) cell. -/
def cellCount (aobjs : List CellObj) (g b c : ℕ) : ℕ :=
  (aobjs.filter (fun o => o.grp = g ∧ o.bin = b ∧ o.cls = c)).length

/-- The groups present (np.unique of the group column). -/
def grpSet (aobjs : List CellObj) : Finset ℕ :=
  (aobjs.map (fun o => o.grp)).toFinset

/-- The classes present (np.unique of the class column). -/
def clsSet (aobjs : List CellObj) : Finset ℕ :=
  (aobjs.map (fun o => o.cls)).toFinset

/-- np.sum(counts): the total count over all cells of the array, whose bin
dimension is B = num_bins + 1. -/
def totalCounts (aobjs : List CellObj) (B : ℕ) : ℕ :=
  ∑ g ∈ grpSet aobjs, ∑ b ∈ Finset.range B, ∑ c ∈ clsSet aobjs,
    cellCount aobjs g b c

/-- np.sum(counts[:, 1:, :] > 1e-4 * total_counts): the number of
non-galactic cells with non-negligible occupancy. -/
def numExtgalBins (aobjs : List CellObj) (B : ℕ) : ℕ :=
  ∑ g ∈ grpSet aobjs, ∑ b ∈ Finset.Ico 1 B, ∑ c ∈ clsSet aobjs,
    if (1e-4 : ℚ) * (totalCounts aobjs B : ℚ) < (cellCount aobjs g b c : ℚ)
    then 1 else 0

/-- Summed non-galactic counts of one class. -/
def classExtgalCount (aobjs : List CellObj) (B c : ℕ) : ℕ :=
  ∑ g ∈ grpSet aobjs, ∑ b ∈ Finset.Ico 1 B, cellCount aobjs g b c

/-- Summed galactic-bin counts of one class. -/
def classGalCount (aobjs : List CellObj) (c : ℕ) : ℕ :=
  ∑ g ∈ grpSet aobjs, cellCount aobjs g 0 c

/-- Whether a class is predominantly extragalactic. -/
def extgalMask (aobjs : List CellObj) (B c : ℕ) : Bool :=
  decide (classGalCount aobjs c < classExtgalCount aobjs B c)

/-- The number of predominantly extragalactic classes. -/
def numExtgalClasses (aobjs : List CellObj) (B : ℕ) : ℕ :=
  ∑ c ∈ clsSet aobjs, if extgalMask aobjs B c then 1 else 0

/-- The extragalactic rescale factor `num_extgal_bins / num_extgal_classes`. -/
def extgalScale (aobjs : List CellObj) (B : ℕ) : ℚ :=
  (numExtgalBins aobjs B : ℚ) / (numExtgalClasses aobjs B : ℚ)

/-- np.clip(counts, min_bin_count, None) for one cell. -/
def flooredCount (aobjs : List CellObj) (mbc : ℚ) (g b c : ℕ) : ℚ :=
  max (cellCount aobjs g b c : ℚ) mbc

/-- The weight of one cell: total over floored count, divided by the
extragalactic rescale for extragalactic classes, then multiplied by the
user class multiplier when a mapping is supplied. -/
def cellWeight (aobjs : List CellObj) (B : ℕ) (mbc : ℚ)
    (cw : Option (List (ℕ × ℚ))) (g b c : ℕ) : ℚ :=
  let base := (totalCounts aobjs B : ℚ) / flooredCount aobjs mbc g b c
  let scaled := if extgalMask aobjs B c then base / extgalScale aobjs B else base
  match cw with
  | none => scaled
  | some m => scaled * ((m.lookup c).getD 1)

/-- The arithmetic part of evaluate_weights_redshift once bins have been
assigned: map every object to the weight of its cell.  A bin index outside
the count-array bound is a numpy IndexError; a class missing from a
supplied multiplier mapping is a KeyError (`class_weights[class_name]`). -/
def evaluate_weights_redshift_binned (aobjs : List CellObj) (B : ℕ) (mbc : ℚ)
    (cw : Option (List (ℕ × ℚ))) : Except Unit (List ℚ) :=
  if aobjs.all (fun o => o.bin < B) then
    match cw with
    | none =>
        .ok (aobjs.map (fun o => cellWeight aobjs B mbc none o.grp o.bin o.cls))
    | some m =>
        if (aobjs.map (fun o => o.cls)).dedup.all (fun c => (m.lookup c).isSome) then
          .ok (aobjs.map (fun o => cellWeight aobjs B mbc (some m) o.grp o.bin o.cls))
        else .error ()
  else .error ()

/-- Embedding of evaluate_weights_redshift: build the edges, assign bins,
and compute the per-object weights (dimension B = num_bins + 1). -/
noncomputable def evaluate_weights_redshift (objs : List ZObj)
    (min_r max_r : ℝ) (num_bins : ℕ) (mbc : ℚ)
    (cw : Option (List (ℕ × ℚ))) : Except Unit (List ℚ) :=
  evaluate_weights_redshift_binned
    (assignBins objs (make_redshift_bins min_r max_r num_bins))
    (num_bins + 1) mbc cw

lemma searchsorted_le_of_le : ∀ (bins : List ℝ) (k : ℕ) (b v : ℝ),
    bins[k]? = some b → v ≤ b → searchsorted bins v ≤ k := by
  intro bins
  induction bins with
  | nil =>
      intro k b v hk _
      simp at hk
  | cons x rest ih =>
      intro k b v hk hv
      cases k with
      | zero =>
          have hx : x = b := by simpa using hk
          rw [searchsorted, if_pos (hx ▸ hv)]
      | succ k =>
          by_cases hxv : v ≤ x
          · rw [searchsorted, if_pos hxv]
            exact Nat.zero_le _
          · rw [searchsorted, if_neg hxv]
            exact Nat.succ_le_succ (ih k b v (by simpa using hk) hv)

lemma make_redshift_bins_last (min_r max_r : ℝ) (num_bins : ℕ) :
    (make_redshift_bins min_r max_r num_bins)[num_bins + 1]? = some 1e99 := by
  simp only [make_redshift_bins, List.getElem?_cons_succ]
  have hlen : ((logspace (Real.logb 10 min_r) (Real.logb 10 max_r)
      (num_bins + 1)).set 0 1e-99).length = num_bins + 1 := by
    simp only [List.length_set, logspace, linspace, List.length_map,
      List.length_range]
  rw [hlen, Nat.add_sub_cancel]
  exact List.getElem?_set_eq_of_lt _ (by rw [hlen]; omega)

lemma binIndex_lt_of_le (min_r max_r : ℝ) (num_bins : ℕ) (v : ℝ)
    (hv : v ≤ 1e99) :
    binIndex (make_redshift_bins min_r max_r num_bins) v < num_bins + 1 := by
  have hss : searchsorted (make_redshift_bins min_r max_r num_bins) v
      ≤ num_bins + 1 :=
    searchsorted_le_of_le _ (num_bins + 1) 1e99 v
      (make_redshift_bins_last min_r max_r num_bins) hv
  rw [binIndex]
  omega

lemma cellCount_self_pos (aobjs : List CellObj) (o : CellObj) (ho : o ∈ aobjs) :
    0 < cellCount aobjs o.grp o.bin o.cls := by
  have hmem : o ∈ aobjs.filter
      (fun x => x.grp = o.grp ∧ x.bin = o.bin ∧ x.cls = o.cls) := by
    simp [List.mem_filter, ho]
  exact List.length_pos.mpr (List.ne_nil_of_mem hmem)

lemma mem_clsSet_of_mem (aobjs : List CellObj) (o : CellObj) (ho : o ∈ aobjs) :
    o.cls ∈ clsSet aobjs := by
  rw [clsSet, List.mem_toFinset]
  exact List.mem_map.mpr ⟨o, ho, rfl⟩

lemma mem_grpSet_of_mem (aobjs : List CellObj) (o : CellObj) (ho : o ∈ aobjs) :
    o.grp ∈ grpSet aobjs := by
  rw [grpSet, List.mem_toFinset]
  exact List.mem_map.mpr ⟨o, ho, rfl⟩

lemma cellCount_le_totalCounts (aobjs : List CellObj) (B : ℕ) (o : CellObj)
    (ho : o ∈ aobjs) (hb : o.bin < B) :
    cellCount aobjs o.grp o.bin o.cls ≤ totalCounts aobjs B := by
  rw [totalCounts]
  calc cellCount aobjs o.grp o.bin o.cls
      ≤ ∑ c ∈ clsSet aobjs, cellCount aobjs o.grp o.bin c :=
        @Finset.single_le_sum ℕ ℕ _ (fun c => cellCount aobjs o.grp o.bin c)
          (clsSet aobjs) (fun i _ => Nat.zero_le _) o.cls
          (mem_clsSet_of_mem aobjs o ho)
    _ ≤ ∑ b ∈ Finset.range B, ∑ c ∈ clsSet aobjs, cellCount aobjs o.grp b c :=
        @Finset.single_le_sum ℕ ℕ _
          (fun b => ∑ c ∈ clsSet aobjs, cellCount aobjs o.grp b c)
          (Finset.range B) (fun i _ => Nat.zero_le _) o.bin
          (Finset.mem_range.mpr hb)
    _ ≤ ∑ g ∈ grpSet aobjs, ∑ b ∈ Finset.range B, ∑ c ∈ clsSet aobjs,
          cellCount aobjs g b c :=
        @Finset.single_le_sum ℕ ℕ _
          (fun g => ∑ b ∈ Finset.range B, ∑ c ∈ clsSet aobjs, cellCount aobjs g b c)
          (grpSet aobjs) (fun i _ => Nat.zero_le _) o.grp
          (mem_grpSet_of_mem aobjs o ho)

lemma numExtgalClasses_pos_of_mask (aobjs : List CellObj) (B c : ℕ)
    (hc : c ∈ clsSet aobjs) (hm : extgalMask aobjs B c = true) :
    0 < numExtgalClasses aobjs B := by
  rw [numExtgalClasses]
  have hle : (if extgalMask aobjs B c then 1 else 0)
      ≤ ∑ x ∈ clsSet aobjs, if extgalMask aobjs B x then 1 else 0 :=
    @Finset.single_le_sum ℕ ℕ _ (fun x => if extgalMask aobjs B x then 1 else 0)
      (clsSet aobjs) (fun i _ => Nat.zero_le _) c hc
  rw [hm] at hle
  simpa using lt_of_lt_of_le Nat.zero_lt_one hle

lemma cellWeight_pos (aobjs : List CellObj) (B : ℕ) (mbc : ℚ)
    (cw : Option (List (ℕ × ℚ))) (o : CellObj) (ho : o ∈ aobjs) (hb : o.bin < B)
    (hscale : numExtgalClasses aobjs B = 0 ∨ 0 < numExtgalBins aobjs B)
    (hm : ∀ m, cw = some m → ∃ q, m.lookup o.cls = some q ∧ 0 < q) :
    0 < cellWeight aobjs B mbc cw o.grp o.bin o.cls := by
  have hcell : 0 < cellCount aobjs o.grp o.bin o.cls := cellCount_self_pos aobjs o ho
  have htot : 0 < (totalCounts aobjs B : ℚ) := by
    exact_mod_cast lt_of_lt_of_le hcell (cellCount_le_totalCounts aobjs B o ho hb)
  have hfloor : 0 < flooredCount aobjs mbc o.grp o.bin o.cls := by
    rw [flooredCount]
    exact lt_of_lt_of_le (by exact_mod_cast hcell) (le_max_left _ _)
  have hbase : 0 < (totalCounts aobjs B : ℚ)
      / flooredCount aobjs mbc o.grp o.bin o.cls := div_pos htot hfloor
  have hscaled : 0 < (if extgalMask aobjs B o.cls then
      (totalCounts aobjs B : ℚ) / flooredCount aobjs mbc o.grp o.bin o.cls
        / extgalScale aobjs B
      else (totalCounts aobjs B : ℚ) / flooredCount aobjs mbc o.grp o.bin o.cls) := by
    by_cases hmask : extgalMask aobjs B o.cls = true
    · rw [if_pos hmask]
      have hnec := numExtgalClasses_pos_of_mask aobjs B o.cls
        (mem_clsSet_of_mem aobjs o ho) hmask
      have hneb : 0 < numExtgalBins aobjs B := by
        rcases hscale with h | h
        · omega
        · exact h
      have hsc : 0 < extgalScale aobjs B := by
        rw [extgalScale]
        exact div_pos (by exact_mod_cast hneb) (by exact_mod_cast hnec)
      exact div_pos hbase hsc
    · rw [if_neg hmask]
      exact hbase
  cases cw with
  | none => exact hscaled
  | some m =>
      obtain ⟨q, hq, hqpos⟩ := hm m rfl
      show 0 < (if extgalMask aobjs B o.cls then
          (totalCounts aobjs B : ℚ) / flooredCount aobjs mbc o.grp o.bin o.cls
            / extgalScale aobjs B
          else (totalCounts aobjs B : ℚ)
            / flooredCount aobjs mbc o.grp o.bin o.cls)
        * ((m.lookup o.cls).getD 1)
      rw [hq, Option.getD_some]
      exact mul_pos hscaled hqpos

/-- C7: for physical redshifts (0 ≤ z ≤ 1e99), a positive multiplier mapping
covering the present classes (or no mapping), and a non-degenerate
extragalactic rescale (some non-negligible extragalactic cell whenever a
class is predominantly extragalactic - excluding the latent division by
zero of the unguarded `num_extgal_bins / num_extgal_classes`),
evaluate_weights_redshift succeeds with exactly one weight per object in
metadata order and every weight strictly positive. -/
theorem redshift_weights_aligned_positive (objs : List ZObj) (min_r max_r : ℝ)
    (num_bins : ℕ) (mbc : ℚ) (cw : Option (List (ℕ × ℚ)))
    (hz : ∀ o ∈ objs, 0 ≤ o.z ∧ o.z ≤ 1e99)
    (hcw : ∀ m, cw = some m → ∀ o ∈ objs, ∃ q, m.lookup o.cls = some q ∧ 0 < q)
    (hscale :
      numExtgalClasses
          (assignBins objs (make_redshift_bins min_r max_r num_bins))
          (num_bins + 1) = 0
        ∨ 0 < numExtgalBins
            (assignBins objs (make_redshift_bins min_r max_r num_bins))
            (num_bins + 1)) :
    ∃ ws, evaluate_weights_redshift objs min_r max_r num_bins mbc cw = .ok ws
      ∧ ws.length = objs.length ∧ ∀ w ∈ ws, 0 < w := by
  have hbound : ∀ o ∈ assignBins objs (make_redshift_bins min_r max_r num_bins),
      o.bin < num_bins + 1 := by
    intro o ho
    rcases List.mem_map.mp ho with ⟨src, hsrc, rfl⟩
    exact binIndex_lt_of_le min_r max_r num_bins src.z (hz src hsrc).2
  have hall : (assignBins objs (make_redshift_bins min_r max_r num_bins)).all
      (fun o => o.bin < num_bins + 1) = true := by
    rw [List.all_eq_true]
    intro o ho
    simpa using hbound o ho
  have hlen : (assignBins objs (make_redshift_bins min_r max_r num_bins)).length
      = objs.length := by
    rw [assignBins, List.length_map]
  cases cw with
  | none =>
      refine ⟨(assignBins objs (make_redshift_bins min_r max_r num_bins)).map
          (fun o => cellWeight
            (assignBins objs (make_redshift_bins min_r max_r num_bins))
            (num_bins + 1) mbc none o.grp o.bin o.cls), ?_, ?_, ?_⟩
      · simp only [evaluate_weights_redshift, evaluate_weights_redshift_binned]
        rw [if_pos hall]
      · rw [List.length_map, hlen]
      · intro w hw
        rcases List.mem_map.mp hw with ⟨o, ho, rfl⟩
        exact cellWeight_pos _ _ mbc none o ho (hbound o ho) hscale
          (fun m hm => Option.noConfusion hm)
  | some m =>
      have hcls : ((assignBins objs
            (make_redshift_bins min_r max_r num_bins)).map
          (fun o => o.cls)).dedup.all (fun c => (m.lookup c).isSome) = true := by
        rw [List.all_eq_true]
        intro c hc
        rcases List.mem_map.mp (List.mem_dedup.mp hc) with ⟨o, ho, rfl⟩
        rcases List.mem_map.mp ho with ⟨src, hsrc, rfl⟩
        obtain ⟨q, hq, _⟩ := hcw m rfl src hsrc
        simp [assignBins, hq]
      refine ⟨(assignBins objs (make_redshift_bins min_r max_r num_bins)).map
          (fun o => cellWeight
            (assignBins objs (make_redshift_bins min_r max_r num_bins))
            (num_bins + 1) mbc (some m) o.grp o.bin o.cls), ?_, ?_, ?_⟩
      · simp only [evaluate_weights_redshift, evaluate_weights_redshift_binned]
        rw [if_pos hall, if_pos hcls]
      · rw [List.length_map, hlen]
      · intro w hw
        rcases List.mem_map.mp hw with ⟨o, ho, rfl⟩
        refine cellWeight_pos _ _ mbc (some m) o ho (hbound o ho) hscale ?_
        intro m' hm'
        injection hm' with hmm
        subst hmm
        rcases List.mem_map.mp ho with ⟨src, hsrc, rfl⟩
        exact hcw m rfl src hsrc

/-- Witness for C7: one object of class 0, group 0 at redshift exactly 0,
the bin layout of min=0.1, max=10, num_bins=2, count floor 1, no mapping. -/
theorem redshift_weights_aligned_positive_witness :
    ∃ ws, evaluate_weights_redshift [⟨0, 0, 0⟩] (1/10) 10 2 1 none = .ok ws
      ∧ ws.length = ([⟨0, 0, (0 : ℝ)⟩] : List ZObj).length ∧ ∀ w ∈ ws, 0 < w := by
  have hbi : binIndex [(-1e99 : ℝ), 1e-99, 1, 1e99] 0 = 0 := by
    rw [binIndex, searchsorted, if_neg (by norm_num), searchsorted,
      if_pos (by norm_num)]
  have hassign : assignBins [⟨0, 0, (0 : ℝ)⟩] (make_redshift_bins (1/10) 10 2)
      = [⟨0, 0, 0⟩] := by
    rw [assignBins, make_redshift_bins_example]
    simp only [List.map_cons, List.map_nil, hbi]
  refine redshift_weights_aligned_positive [⟨0, 0, 0⟩] (1/10) 10 2 1 none
    ?_ ?_ ?_
  · intro o ho
    rw [List.mem_singleton] at ho
    subst ho
    constructor <;> norm_num
  · exact fun m hm => Option.noConfusion hm
  · refine Or.inl ?_
    rw [hassign]
    decide

end AvocadoClassifier
